import Mathlib

/-!
Verification of the lcptools core (locally consistent parsing).

Shallow embedding of `src/core.c` / `src/core.h` (core records, level-1 and
level-3 initializers, the 32-bit mixing hash, comparison macros), together
with spec-modelled definitions for the components of the repository that are
not present under `src/` (the alphabet tables of `encoding.h`, the core
identifier, the segment splitter/merger and the serializer, declared in
`src/lps.h` and exercised by `src/tests/` but whose implementation file is
absent).  Machine integers are modelled as `Nat` with explicit `% 2^32` /
`% 2^64` where the C code truncates; fallible memory reads are modelled with
`Option`, a pointer offset being an `Int`.
-/

/-- The core record of `core.h`: `{ label : u32; start : u64; end : u64 }`. -/
structure core where
  label : Nat
  start : Nat
  «end» : Nat
deriving DecidableEq, Repr, Inhabited

/-- Reading an element at a (possibly negative) pointer offset: models the
C dereference `*(begin + i)`, which is valid only for `0 ≤ i < length`. -/
def readAt (s : List α) (i : Int) : Option α :=
  if 0 ≤ i then s[i.toNat]? else none

/-- Modelled from the spec: the forward-strand alphabet table of
`encoding.h`, which is not under `src/`.  §4.1: `encode(byte) ∈ [0,3]` for
the four bases; an invalid byte maps to a value that cannot alias a
legitimate code (here 4). -/
def alphabet (ch : Char) : Nat :=
  if ch = 'A' then 0
  else if ch = 'C' then 1
  else if ch = 'G' then 2
  else if ch = 'T' then 3
  else 4

/-- Modelled from the spec: the reverse-complement alphabet table
`rc_alphabet` of `encoding.h`, which is not under `src/`.  §4.1: A↔T, C↔G
pairing, value-complemented. -/
def rc_alphabet (ch : Char) : Nat :=
  if ch = 'A' then 3
  else if ch = 'C' then 2
  else if ch = 'G' then 1
  else if ch = 'T' then 0
  else 4

/-- The level-1 label packing of `init_core1`/`init_core2` in `core.c`:
`((distance - 2) << 6) | (c1 << 4) | (c2 << 2) | c3`, truncated to the
`u32` label field. -/
def pack1 (c1 c2 c3 L : Nat) : Nat :=
  (((L - 2) <<< 6) ||| (c1 <<< 4) ||| (c2 <<< 2) ||| c3) % 2 ^ 32

/-- `init_core1` of `core.c`: reads the characters at offsets `0`,
`distance - 2`, `distance - 1` of `begin`, encodes them with `alphabet`,
and packs the label; `start`/`end` are taken verbatim. -/
def init_core1 (begin : List Char) (distance start_index end_index : Nat) :
    Option core := do
  let ch1 ← readAt begin 0
  let ch2 ← readAt begin ((distance : Int) - 2)
  let ch3 ← readAt begin ((distance : Int) - 1)
  some { label := pack1 (alphabet ch1) (alphabet ch2) (alphabet ch3) distance,
         start := start_index, «end» := end_index }

/-- `init_core2` of `core.c`: as `init_core1` but through the
reverse-complement table `rc_alphabet`. -/
def init_core2 (begin : List Char) (distance start_index end_index : Nat) :
    Option core := do
  let ch1 ← readAt begin 0
  let ch2 ← readAt begin ((distance : Int) - 2)
  let ch3 ← readAt begin ((distance : Int) - 1)
  some { label := pack1 (rc_alphabet ch1) (rc_alphabet ch2) (rc_alphabet ch3) distance,
         start := start_index, «end» := end_index }

-- Sanity checks on the embedding.
example : init_core1 ['G', 'T', 'A'] 3 5 8 =
    some { label := (1 <<< 6) ||| (2 <<< 4) ||| (3 <<< 2) ||| 0, start := 5, «end» := 8 } := by
  decide

example : init_core1 ['G', 'T', 'A'] 1 5 8 = none := by decide

/-- The little-endian byte image of the low `k` bytes of a natural number;
with `k = 4` this is the memory image of a `uint32_t` (x86 byte order),
which is how `murmurhash32` reads the `ulabel data[4]` array of
`init_core3` and how the serializer lays out fields. -/
def bytesLE : Nat → Nat → List Nat
  | 0, _ => []
  | k + 1, n => n % 256 :: bytesLE k (n / 256)

/-- The 4-byte little-endian blocks of a byte stream, as read by the block
loop of `murmurhash32` (`blocks[i]` for `i = -nblocks .. -1`); a final
group of fewer than 4 bytes is the tail and is not a block. -/
def toBlocksLE : List Nat → List Nat
  | a :: b :: c :: d :: rest => (a + 256 * b + 65536 * c + 16777216 * d) :: toBlocksLE rest
  | _ => []

/-- The finalizer of `murmurhash32` (`fmix32`): 16/13/16 shift-xor with the
two multiplicative constants, on `u32`. -/
def fmix32 (h : Nat) : Nat :=
  let h := h ^^^ (h >>> 16)
  let h := (h * 0x85ebca6b) % 2 ^ 32
  let h := h ^^^ (h >>> 13)
  let h := (h * 0xc2b2ae35) % 2 ^ 32
  h ^^^ (h >>> 16)

/-- One iteration of the block loop of `murmurhash32` in `core.c`:
`k1 *= c1; k1 = rotl(k1,15); k1 *= c2; h1 ^= k1; h1 = rotl(h1,15);
h1 = h1*5 + 0xe6546b64`.  Note the source rotates `h1` by 15
(`(h1 << 15) | (h1 >> (32 - 15))`). -/
def murmur_step (h1 block : Nat) : Nat :=
  let k1 := (block * 0xcc9e2d51) % 2 ^ 32
  let k1 := ((k1 <<< 15) ||| (k1 >>> 17)) % 2 ^ 32
  let k1 := (k1 * 0x1b873593) % 2 ^ 32
  let h1 := h1 ^^^ k1
  let h1 := ((h1 <<< 15) ||| (h1 >>> 17)) % 2 ^ 32
  (h1 * 5 + 0xe6546b64) % 2 ^ 32

/-- `murmurhash32` of `core.c` on a byte stream.  In the tail `switch` of
the source, `case 3` and `case 2` end in `break` before anything is mixed
into `h1`, so `h1` only changes in `case 1`; this embedding reproduces that
extensionally (tail bytes have no effect when `len % 4 ∈ {2, 3}`). -/
def murmurhash32 (key : List Nat) (seed : Nat) : Nat :=
  let len := key.length
  let body := List.foldl murmur_step (seed % 2 ^ 32) (toBlocksLE key)
  let tail := key.drop (len / 4 * 4)
  let h1 :=
    if len % 4 = 1 then
      let k1 := tail.getD 0 0
      let k1 := (k1 * 0xcc9e2d51) % 2 ^ 32
      let k1 := ((k1 <<< 15) ||| (k1 >>> 17)) % 2 ^ 32
      let k1 := (k1 * 0x1b873593) % 2 ^ 32
      body ^^^ k1
    else body
  fmix32 (h1 ^^^ (len % 2 ^ 32))

/-- One block-loop iteration of reference MurmurHash3 (x86, 32-bit):
identical to `murmur_step` except that `h1` is rotated by 13, as the
reference algorithm prescribes. -/
def murmur3_ref_step (h1 block : Nat) : Nat :=
  let k1 := (block * 0xcc9e2d51) % 2 ^ 32
  let k1 := ((k1 <<< 15) ||| (k1 >>> 17)) % 2 ^ 32
  let k1 := (k1 * 0x1b873593) % 2 ^ 32
  let h1 := h1 ^^^ k1
  let h1 := ((h1 <<< 13) ||| (h1 >>> 19)) % 2 ^ 32
  (h1 * 5 + 0xe6546b64) % 2 ^ 32

/-- Modelled from the spec: reference MurmurHash3 32-bit semantics per
§4.2 — 4-byte blocks with the `0xcc9e2d51`/`0x1b873593` rotate/multiply
mixing and the standard rotations (15 for `k1`, 13 for `h1`), the 1–3 tail
bytes folded in (fall-through accumulation, then the `k1` mixing applied
once), the length XORed in, and the 16/13/16 triple-multiply finalizer. -/
def murmurhash32_spec (key : List Nat) (seed : Nat) : Nat :=
  let len := key.length
  let body := List.foldl murmur3_ref_step (seed % 2 ^ 32) (toBlocksLE key)
  let tail := key.drop (len / 4 * 4)
  let k1 := (if 3 ≤ len % 4 then tail.getD 2 0 <<< 16 else 0) ^^^
            (if 2 ≤ len % 4 then tail.getD 1 0 <<< 8 else 0) ^^^
            (if 1 ≤ len % 4 then tail.getD 0 0 else 0)
  let h1 :=
    if len % 4 = 0 then body
    else
      let k1 := (k1 * 0xcc9e2d51) % 2 ^ 32
      let k1 := ((k1 <<< 15) ||| (k1 >>> 17)) % 2 ^ 32
      let k1 := (k1 * 0x1b873593) % 2 ^ 32
      body ^^^ k1
  fmix32 (h1 ^^^ (len % 2 ^ 32))

/-- `init_core3` of `core.c`: combines a run of `distance` lower-level
cores; the label is `murmurhash32` (seed 42) of the 16-byte memory image of
`ulabel data[4] = { begin[0].label, begin[distance-2].label,
begin[distance-1].label, distance - 2 }` (each entry a `u32`), `start` is
`begin[0].start` and `end` is `begin[distance-1].end`. -/
def init_core3 (begin : List core) (distance : Nat) : Option core := do
  let c0 ← readAt begin 0
  let cm ← readAt begin ((distance : Int) - 2)
  let cl ← readAt begin ((distance : Int) - 1)
  some { label := murmurhash32
           (bytesLE 4 c0.label ++ bytesLE 4 cm.label ++ bytesLE 4 cl.label ++
            bytesLE 4 ((distance - 2) % 2 ^ 32)) 42,
         start := c0.start, «end» := cl.«end» }

/-- `init_core4` of `core.c`: field-wise initialization. -/
def init_core4 (label start «end» : Nat) : core :=
  { label := label, start := start, «end» := «end» }

-- The comparison macros of `core.h`: every comparison looks only at
-- `label & 3`.

/-- `core_eq` of `core.h`: `((lhs)->label & 3) == ((rhs)->label & 3)`. -/
def core_eq (lhs rhs : core) : Bool := (lhs.label &&& 3) == (rhs.label &&& 3)

/-- `core_neq` of `core.h`: `((lhs)->label & 3) != ((rhs)->label & 3)`. -/
def core_neq (lhs rhs : core) : Bool := (lhs.label &&& 3) != (rhs.label &&& 3)

/-- `core_gt` of `core.h`: `((lhs)->label & 3) > ((rhs)->label & 3)`. -/
def core_gt (lhs rhs : core) : Bool := decide ((rhs.label &&& 3) < (lhs.label &&& 3))

/-- `core_lt` of `core.h`: `((lhs)->label & 3) < ((rhs)->label & 3)`. -/
def core_lt (lhs rhs : core) : Bool := decide ((lhs.label &&& 3) < (rhs.label &&& 3))

/-- `core_geq` of `core.h`: `((lhs)->label & 3) >= ((rhs)->label & 3)`. -/
def core_geq (lhs rhs : core) : Bool := decide ((rhs.label &&& 3) ≤ (lhs.label &&& 3))

/-- `core_leq` of `core.h`: `((lhs)->label & 3) <= ((rhs)->label & 3)`. -/
def core_leq (lhs rhs : core) : Bool := decide ((lhs.label &&& 3) ≤ (rhs.label &&& 3))

-- Helper lemmas about pointer reads.

lemma readAt_coe (s : List α) (i : Nat) : readAt s (i : Int) = s[i]? := by
  simp [readAt]

lemma readAt_neg (s : List α) (i : Int) (h : i < 0) : readAt s i = none := by
  simp [readAt]
  omega

lemma readAt_of_lt [Inhabited α] (s : List α) (i : Nat) (h : i < s.length) :
    readAt s (i : Int) = some (s.getD i default) := by
  rw [readAt_coe, List.getElem?_eq_getElem h, List.getD_eq_getElem s default h]

lemma coe_sub_eq (d k : Nat) (h : k ≤ d) : (d : Int) - k = ((d - k : Nat) : Int) := by
  omega


lemma coe_sub_two (d : Nat) (h : 2 ≤ d) : (d : Int) - 2 = ((d - 2 : Nat) : Int) := by
  omega

lemma coe_sub_one (d : Nat) (h : 1 ≤ d) : (d : Int) - 1 = ((d - 1 : Nat) : Int) := by
  omega

lemma pack1_lt (c1 c2 c3 L : Nat) (hc1 : c1 ≤ 3) (hc2 : c2 ≤ 3) (hc3 : c3 ≤ 3)
    (hL : L < 2 ^ 26 + 2) :
    ((L - 2) <<< 6) ||| (c1 <<< 4) ||| (c2 <<< 2) ||| c3 < 2 ^ 32 := by
  have b1 : (L - 2) <<< 6 < 2 ^ 32 := by
    rw [Nat.shiftLeft_eq]
    norm_num
    omega
  have b2 : c1 <<< 4 < 2 ^ 32 := by rw [Nat.shiftLeft_eq]; norm_num; omega
  have b3 : c2 <<< 2 < 2 ^ 32 := by rw [Nat.shiftLeft_eq]; norm_num; omega
  have b4 : c3 < 2 ^ 32 := by norm_num; omega
  exact Nat.bitwise_lt (Nat.bitwise_lt (Nat.bitwise_lt b1 b2) b3) b4

/-- C1: for a buffer of at least `distance ≥ 3` characters whose accessed
characters (first, at `distance-2`, at `distance-1`) encode to 2-bit codes
`c1`, `c2`, `c3 ≤ 3`, `init_core1` sets the label to
`((distance-2) <<< 6) ||| (c1 <<< 4) ||| (c2 <<< 2) ||| c3` (a `u32` store,
hence taken `% 2^32`; below `2^26 + 2` the packed value fits and no
truncation occurs) and copies `start_index`/`end_index`, independently of
all other characters of the buffer. -/
theorem init_core1_label_packing (s : List Char) (d st en c1 c2 c3 : Nat)
    (hd : 3 ≤ d) (hlen : d ≤ s.length)
    (h1 : alphabet (s.getD 0 default) = c1)
    (h2 : alphabet (s.getD (d - 2) default) = c2)
    (h3 : alphabet (s.getD (d - 1) default) = c3)
    (hc1 : c1 ≤ 3) (hc2 : c2 ≤ 3) (hc3 : c3 ≤ 3) :
    init_core1 s d st en =
      some { label := (((d - 2) <<< 6) ||| (c1 <<< 4) ||| (c2 <<< 2) ||| c3) % 2 ^ 32,
             start := st, «end» := en } ∧
    (d < 2 ^ 26 + 2 →
      init_core1 s d st en =
        some { label := ((d - 2) <<< 6) ||| (c1 <<< 4) ||| (c2 <<< 2) ||| c3,
               start := st, «end» := en }) := by
  have e0 : readAt s (0 : Int) = some (s.getD 0 default) := by
    have h := readAt_of_lt s 0 (by omega)
    simpa using h
  have e2 : readAt s ((d : Int) - 2) = some (s.getD (d - 2) default) := by
    rw [coe_sub_two d (by omega)]
    exact readAt_of_lt s (d - 2) (by omega)
  have e3 : readAt s ((d : Int) - 1) = some (s.getD (d - 1) default) := by
    rw [coe_sub_one d (by omega)]
    exact readAt_of_lt s (d - 1) (by omega)
  simp [List.getD] at h1 h2 h3
  constructor
  · simp [init_core1, e0, e2, e3, pack1, h1, h2, h3]
  · intro hsmall
    have hfit := pack1_lt c1 c2 c3 d hc1 hc2 hc3 hsmall
    norm_num at hfit
    simp [init_core1, e0, e2, e3, pack1, h1, h2, h3, Nat.mod_eq_of_lt hfit]

/-- Witness for `init_core1_label_packing` at the concrete buffer
`['G','T','A','C']`, `distance = 4`. -/
theorem init_core1_label_packing_witness :
    (3 ≤ 4 ∧ 4 ≤ (['G', 'T', 'A', 'C'] : List Char).length) ∧
    init_core1 ['G', 'T', 'A', 'C'] 4 10 14 =
      some { label := ((2 <<< 6) ||| (2 <<< 4) ||| (0 <<< 2) ||| 1) % 2 ^ 32,
             start := 10, «end» := 14 } :=
  ⟨⟨by decide, by decide⟩,
    (init_core1_label_packing ['G', 'T', 'A', 'C'] 4 10 14 2 0 1
      (by decide) (by decide) (by decide) (by decide) (by decide)
      (by decide) (by decide) (by decide)).1⟩

lemma init_core3_eq (t : List core) (d : Nat) (hd : 2 ≤ d) (ht : d ≤ t.length) :
    init_core3 t d =
      some { label := murmurhash32
               (bytesLE 4 (t.getD 0 default).label ++
                bytesLE 4 (t.getD (d - 2) default).label ++
                bytesLE 4 (t.getD (d - 1) default).label ++
                bytesLE 4 ((d - 2) % 2 ^ 32)) 42,
             start := (t.getD 0 default).start,
             «end» := (t.getD (d - 1) default).«end» } := by
  have e0 : readAt t (0 : Int) = some (t.getD 0 default) := by
    have h := readAt_of_lt t 0 (by omega)
    simpa using h
  have e2 : readAt t ((d : Int) - 2) = some (t.getD (d - 2) default) := by
    rw [coe_sub_two d (by omega)]
    exact readAt_of_lt t (d - 2) (by omega)
  have e3 : readAt t ((d : Int) - 1) = some (t.getD (d - 1) default) := by
    rw [coe_sub_one d (by omega)]
    exact readAt_of_lt t (d - 1) (by omega)
  simp [init_core3, e0, e2, e3]

/-- C2: for a run of `distance ≥ 2` consecutive lower-level cores,
`init_core3` sets the label to the 32-bit `murmurhash32` fingerprint
(seed 42) of the 16-byte image of the 4-tuple `(label₀, label_{D-2},
label_{D-1}, D-2)` (each entry written as a `u32`), `start` to
`core₀.start` and `end` to `core_{D-1}.end`; and the result never depends
on the cores strictly between `core₀` and `core_{D-2}` — any list agreeing
at positions `0`, `D-2`, `D-1` produces the same core. -/
theorem init_core3_fingerprint (cs : List core) (d : Nat)
    (hd : 2 ≤ d) (hlen : d ≤ cs.length) :
    init_core3 cs d =
      some { label := murmurhash32
               (bytesLE 4 (cs.getD 0 default).label ++
                bytesLE 4 (cs.getD (d - 2) default).label ++
                bytesLE 4 (cs.getD (d - 1) default).label ++
                bytesLE 4 ((d - 2) % 2 ^ 32)) 42,
             start := (cs.getD 0 default).start,
             «end» := (cs.getD (d - 1) default).«end» } ∧
    (∀ cs' : List core, d ≤ cs'.length →
      cs'.getD 0 default = cs.getD 0 default →
      cs'.getD (d - 2) default = cs.getD (d - 2) default →
      cs'.getD (d - 1) default = cs.getD (d - 1) default →
      init_core3 cs' d = init_core3 cs d) := by
  refine ⟨init_core3_eq cs d hd hlen, ?_⟩
  intro cs' h' ha hb hc
  rw [init_core3_eq cs' d hd h', init_core3_eq cs d hd hlen, ha, hb, hc]

/-- Witness for `init_core3_fingerprint`: two runs of length 3 agreeing at
positions 0, 1, 2 — trivially — and a run of length 4 agreeing with a run
whose interior core differs, yielding the same fingerprint. -/
theorem init_core3_fingerprint_witness :
    (2 ≤ 4 ∧ 4 ≤ ([init_core4 9 0 3, init_core4 7 3 6, init_core4 5 6 9,
                    init_core4 2 9 12] : List core).length) ∧
    init_core3 [init_core4 9 0 3, init_core4 99 3 6, init_core4 5 6 9,
                init_core4 2 9 12] 4 =
      init_core3 [init_core4 9 0 3, init_core4 7 3 6, init_core4 5 6 9,
                  init_core4 2 9 12] 4 :=
  ⟨⟨by decide, by decide⟩,
    (init_core3_fingerprint
      [init_core4 9 0 3, init_core4 7 3 6, init_core4 5 6 9, init_core4 2 9 12]
      4 (by decide) (by decide)).2
      [init_core4 9 0 3, init_core4 99 3 6, init_core4 5 6 9, init_core4 2 9 12]
      (by decide) (by decide) (by decide) (by decide)⟩

-- The reference model `murmurhash32_spec` reproduces the published
-- MurmurHash3 x86 32-bit test vectors.
example : murmurhash32_spec [] 0 = 0 := by decide
example : murmurhash32_spec [] 1 = 0x514E28B7 := by decide
example : murmurhash32_spec [116, 101, 115, 116] 0 = 0xba6bd213 := by decide
example : murmurhash32_spec [97, 97, 97, 97] 0x9747b28c = 0x5A97808A := by decide

/-- C3 (divergence): `murmurhash32` of `core.c` is not reference
MurmurHash3.  The tail `switch` ends `case 3`/`case 2` with `break` before
anything is mixed into `h1`, so inputs of length `≡ 2, 3 (mod 4)` hash
independently of their tail bytes (`[1,2]` and `[255,255]` collide), and
the block loop rotates `h1` by 15 where the reference rotates by 13, so
even a pure-block input (16 bytes, as hashed by `init_core3`) differs from
the reference value. -/
theorem murmurhash32_not_reference :
    murmurhash32 [1, 2] 42 = murmurhash32 [255, 255] 42 ∧
    murmurhash32 [1, 2] 42 ≠ murmurhash32_spec [1, 2] 42 ∧
    murmurhash32 (bytesLE 4 5 ++ bytesLE 4 6 ++ bytesLE 4 7 ++ bytesLE 4 1) 42 ≠
      murmurhash32_spec (bytesLE 4 5 ++ bytesLE 4 6 ++ bytesLE 4 7 ++ bytesLE 4 1) 42 := by
  refine ⟨by decide, by decide, by decide⟩

/-- C4: every comparison macro of `core.h` reduces to the lowest 2 bits of
the labels — `core_eq` holds iff `label & 3` agree, `core_lt` iff they
compare `<`, and so on — and no other field influences any of the six
results: replacing both arguments by cores with the same `label & 3`
(arbitrary full labels, `start`s, `end`s) leaves all six unchanged. -/
theorem core_comparisons_low_two_bits (a b a' b' : core)
    (ha : a.label &&& 3 = a'.label &&& 3) (hb : b.label &&& 3 = b'.label &&& 3) :
    (core_eq a b = true ↔ a.label &&& 3 = b.label &&& 3) ∧
    (core_neq a b = true ↔ ¬a.label &&& 3 = b.label &&& 3) ∧
    (core_lt a b = true ↔ a.label &&& 3 < b.label &&& 3) ∧
    (core_gt a b = true ↔ b.label &&& 3 < a.label &&& 3) ∧
    (core_leq a b = true ↔ a.label &&& 3 ≤ b.label &&& 3) ∧
    (core_geq a b = true ↔ b.label &&& 3 ≤ a.label &&& 3) ∧
    core_eq a b = core_eq a' b' ∧ core_neq a b = core_neq a' b' ∧
    core_lt a b = core_lt a' b' ∧ core_gt a b = core_gt a' b' ∧
    core_leq a b = core_leq a' b' ∧ core_geq a b = core_geq a' b' := by
  simp [core_eq, core_neq, core_lt, core_gt, core_geq, core_leq, ha, hb]

/-- Witness for `core_comparisons_low_two_bits`: `core_lt` is unchanged
when both labels are replaced by others with the same low 2 bits and the
`start`/`end` fields are changed arbitrarily. -/
theorem core_comparisons_low_two_bits_witness :
    ((init_core4 10 0 0).label &&& 3 = (init_core4 6 99 100).label &&& 3) ∧
    ((init_core4 5 2 2).label &&& 3 = (init_core4 1 5 5).label &&& 3) ∧
    core_lt (init_core4 10 0 0) (init_core4 5 2 2) =
      core_lt (init_core4 6 99 100) (init_core4 1 5 5) :=
  ⟨by decide, by decide,
    (core_comparisons_low_two_bits (init_core4 10 0 0) (init_core4 5 2 2)
        (init_core4 6 99 100) (init_core4 1 5 5) (by decide)
        (by decide)).2.2.2.2.2.2.2.2.1⟩

/-- C10: the three initializers validate nothing; under the precondition
`2 ≤ distance ≤ length` every computed offset (`0`, `distance-2`,
`distance-1`) is in bounds and all three succeed, while for
`distance < 2` the offset `distance - 2` (computed by 64-bit pointer
arithmetic) falls outside the given range and every initializer's read
fails — `distance ≥ 2` is a necessary unchecked precondition. -/
theorem init_core_unchecked_precondition (s : List Char) (cs : List core)
    (d st en : Nat) :
    (2 ≤ d → d ≤ s.length →
      (init_core1 s d st en).isSome ∧ (init_core2 s d st en).isSome) ∧
    (2 ≤ d → d ≤ cs.length → (init_core3 cs d).isSome) ∧
    (d < 2 →
      init_core1 s d st en = none ∧ init_core2 s d st en = none ∧
      init_core3 cs d = none) := by
  refine ⟨?_, ?_, ?_⟩
  · intro h2 hl
    have e0 : readAt s (0 : Int) = some (s.getD 0 default) := by
      have h := readAt_of_lt s 0 (by omega)
      simpa using h
    have e2 : readAt s ((d : Int) - 2) = some (s.getD (d - 2) default) := by
      rw [coe_sub_two d h2]
      exact readAt_of_lt s (d - 2) (by omega)
    have e3 : readAt s ((d : Int) - 1) = some (s.getD (d - 1) default) := by
      rw [coe_sub_one d (by omega)]
      exact readAt_of_lt s (d - 1) (by omega)
    constructor <;> simp [init_core1, init_core2, e0, e2, e3]
  · intro h2 hl
    rw [init_core3_eq cs d h2 hl]
    rfl
  · intro hlt
    have hneg : ((d : Int) - 2) < 0 := by omega
    refine ⟨?_, ?_, ?_⟩
    · cases h0 : readAt s (0 : Int) <;>
        simp [init_core1, h0, readAt_neg s _ hneg]
    · cases h0 : readAt s (0 : Int) <;>
        simp [init_core2, h0, readAt_neg s _ hneg]
    · cases h0 : readAt cs (0 : Int) <;>
        simp [init_core3, h0, readAt_neg cs _ hneg]

/-- Witness for `init_core_unchecked_precondition` at a 3-character buffer,
a 2-core run, `distance = 2`. -/
theorem init_core_unchecked_precondition_witness :
    ((2 : Nat) ≤ 2 ∧ 2 ≤ (['A', 'C', 'G'] : List Char).length ∧
      2 ≤ ([init_core4 1 0 3, init_core4 2 1 4] : List core).length) ∧
    (init_core1 ['A', 'C', 'G'] 2 0 2).isSome ∧
    (init_core3 [init_core4 1 0 3, init_core4 2 1 4] 2).isSome :=
  ⟨⟨by decide, by decide, by decide⟩,
    ((init_core_unchecked_precondition ['A', 'C', 'G']
        [init_core4 1 0 3, init_core4 2 1 4] 2 0 2).1 (by decide) (by decide)).1,
    (init_core_unchecked_precondition ['A', 'C', 'G']
        [init_core4 1 0 3, init_core4 2 1 4] 2 0 2).2.1 (by decide) (by decide)⟩

/-!
The Core Identifier (§4.3).  Its implementation file is not under `src/`
(only its declarations in `lps.h` and its tests); the spec leaves the exact
local-extremum predicate open (§9) and fixes only the algorithm shape — a
small sliding window scanned left to right, emitting a core where the
window is a local order extremum.  The model below instantiates that shape
minimally: a window of three symbols whose middle symbol is a strict local
minimum is a core, labelled with the level-1 packing of the window.
-/

/-- Modelled from the spec: the candidate core at window position `i` of a
symbol sequence (§4.3); `off` is the position of the parsed slice inside
the original sequence (cf. `init_lps_offset` in the tests). -/
def coreAt (off : Nat) (s : List Nat) (i : Nat) : Option core :=
  match s[i]?, s[i + 1]?, s[i + 2]? with
  | some a, some b, some c =>
      if b < a ∧ b < c then some (init_core4 (pack1 a b c 3) (off + i) (off + i + 3))
      else none
  | _, _, _ => none

/-- Modelled from the spec: the level-1 Core Identifier (§4.3) — the
left-to-right scan emitting the core of every matching window. -/
def parse1 (off : Nat) (s : List Nat) : List core :=
  (List.range s.length).filterMap (coreAt off s)

lemma coreAt_some {off : Nat} {s : List Nat} {i : Nat} {c : core}
    (h : coreAt off s i = some c) :
    c.start = off + i ∧ c.«end» = off + i + 3 ∧ i + 3 ≤ s.length := by
  unfold coreAt at h
  cases h0 : s[i]? <;> cases h1 : s[i + 1]? <;> cases h2 : s[i + 2]? <;>
    simp [h0, h1, h2] at h
  rcases h with ⟨hp, hc⟩
  have hlen : i + 2 < s.length := by
    by_contra hge
    rw [List.getElem?_eq_none (by omega)] at h2
    exact Option.noConfusion h2
  subst hc
  simp [init_core4]
  omega

lemma mem_parse1 {off : Nat} {s : List Nat} {c : core} :
    c ∈ parse1 off s ↔ ∃ i, coreAt off s i = some c := by
  unfold parse1
  rw [List.mem_filterMap]
  constructor
  · rintro ⟨i, _, hi⟩
    exact ⟨i, hi⟩
  · rintro ⟨i, hi⟩
    refine ⟨i, List.mem_range.2 ?_, hi⟩
    have := (coreAt_some hi).2.2
    omega

lemma parse1_short {off : Nat} {s : List Nat} (h : s.length < 3) :
    parse1 off s = [] := by
  unfold parse1
  rw [List.filterMap_eq_nil_iff]
  intro i hi
  unfold coreAt
  rw [List.getElem?_eq_none (show s.length ≤ i + 2 by omega)]
  rcases h0 : s[i]? with _ | a <;> rcases h1 : s[i + 1]? with _ | b <;> rfl


lemma coreAt_window {off : Nat} {s : List Nat} {i : Nat} {c : core}
    (h : coreAt off s i = some c) :
    ∃ a b d, s[i]? = some a ∧ s[i + 1]? = some b ∧ s[i + 2]? = some d ∧
      b < a ∧ b < d ∧ c = init_core4 (pack1 a b d 3) (off + i) (off + i + 3) := by
  unfold coreAt at h
  rcases h0 : s[i]? with _ | a <;> rw [h0] at h <;> try exact Option.noConfusion h
  rcases h1 : s[i + 1]? with _ | b <;> rw [h1] at h <;> try exact Option.noConfusion h
  rcases h2 : s[i + 2]? with _ | d <;> rw [h2] at h <;> try exact Option.noConfusion h
  rcases ite_eq_iff.1 h with ⟨hp, hsome⟩ | ⟨_, hnone⟩
  · exact ⟨a, b, d, rfl, rfl, rfl, hp.1, hp.2,
      (Option.some_inj.1 hsome).symm⟩
  · exact Option.noConfusion hnone

lemma drop_window {α : Type _} {s : List α} {i : Nat} {a b d : α}
    (h0 : s[i]? = some a) (h1 : s[i + 1]? = some b) (h2 : s[i + 2]? = some d) :
    s.drop i = a :: b :: d :: s.drop (i + 3) := by
  have l2 : i + 2 < s.length := by
    by_contra hge
    rw [List.getElem?_eq_none (by omega)] at h2
    exact Option.noConfusion h2
  rw [List.drop_eq_getElem_cons (show i < s.length by omega),
      List.drop_eq_getElem_cons (show i + 1 < s.length by omega),
      List.drop_eq_getElem_cons (show i + 2 < s.length by omega)]
  have e0 : s[i] = a := by
    have h := List.getElem?_eq_getElem (show i < s.length by omega)
    rw [h0] at h
    exact (Option.some_inj.1 h.symm)
  have e1 : s[i + 1] = b := by
    have h := List.getElem?_eq_getElem (show i + 1 < s.length by omega)
    rw [h1] at h
    exact (Option.some_inj.1 h.symm)
  have e2 : s[i + 2] = d := by
    have h := List.getElem?_eq_getElem (show i + 2 < s.length by omega)
    rw [h2] at h
    exact (Option.some_inj.1 h.symm)
  rw [e0, e1, e2]

lemma parse1_window (off a b d : Nat) (hab : b < a) (hbd : b < d) :
    parse1 off [a, b, d] = [init_core4 (pack1 a b d 3) off (off + 3)] := by
  have hr : List.range ([a, b, d] : List Nat).length = [0, 1, 2] := rfl
  simp only [parse1, hr]
  simp [coreAt, hab, hbd, List.filterMap]

/-- C5: any core found by a level-1 parse of the full sequence, with range
`[s, e)`, is reproduced — as exactly one core, with the same label and the
same range — by re-parsing the standalone substring `original[s:e]` with
offsets adjusted by `s`, using no outside context. -/
theorem parse1_self_containment (s : List Nat) (c : core) (hc : c ∈ parse1 0 s) :
    parse1 c.start ((s.drop c.start).take (c.«end» - c.start)) = [c] := by
  rcases mem_parse1.1 hc with ⟨i, hi⟩
  obtain ⟨hst, hen, hlen⟩ := coreAt_some hi
  obtain ⟨a, b, d, h0, h1, h2, hab, hbd, hc'⟩ := coreAt_window hi
  have hwin := drop_window h0 h1 h2
  have hst' : c.start = i := by omega
  have hd3 : c.«end» - i = 3 := by omega
  rw [hst', hd3, hwin]
  simp only [List.take_succ_cons, List.take_zero]
  rw [parse1_window i a b d hab hbd, hc']
  simp [init_core4]

/-- Witness for `parse1_self_containment` on the symbol sequence
`[2, 0, 3, 1]` (one core, the window `[2, 0, 3]` at position 0). -/
theorem parse1_self_containment_witness :
    init_core4 (pack1 2 0 3 3) 0 3 ∈ parse1 0 [2, 0, 3, 1] ∧
    parse1 (init_core4 (pack1 2 0 3 3) 0 3).start
      (([2, 0, 3, 1].drop (init_core4 (pack1 2 0 3 3) 0 3).start).take
        ((init_core4 (pack1 2 0 3 3) 0 3).«end» -
          (init_core4 (pack1 2 0 3 3) 0 3).start)) =
      [init_core4 (pack1 2 0 3 3) 0 3] :=
  ⟨by decide,
    parse1_self_containment [2, 0, 3, 1] (init_core4 (pack1 2 0 3 3) 0 3)
      (by decide)⟩

/-- C6: for any core identified over `[s, e)` of the original sequence,
re-parsing either shrunken range — `[s+1, e)` or `[s, e-1)` — yields zero
cores: the core disappears entirely rather than shifting. -/
theorem parse1_boundary_sensitivity (s : List Nat) (c : core) (hc : c ∈ parse1 0 s) :
    parse1 (c.start + 1) ((s.drop (c.start + 1)).take (c.«end» - (c.start + 1))) = [] ∧
    parse1 c.start ((s.drop c.start).take (c.«end» - 1 - c.start)) = [] := by
  rcases mem_parse1.1 hc with ⟨i, hi⟩
  obtain ⟨hst, hen, hlen⟩ := coreAt_some hi
  constructor <;> apply parse1_short <;> simp [List.length_take] <;> omega

/-- Witness for `parse1_boundary_sensitivity` on `[2, 0, 3, 1]`: the core
over `[0, 3)` vanishes from both `[1, 3)` and `[0, 2)`. -/
theorem parse1_boundary_sensitivity_witness :
    init_core4 (pack1 2 0 3 3) 0 3 ∈ parse1 0 [2, 0, 3, 1] ∧
    parse1 ((init_core4 (pack1 2 0 3 3) 0 3).start + 1)
      (([2, 0, 3, 1].drop ((init_core4 (pack1 2 0 3 3) 0 3).start + 1)).take
        ((init_core4 (pack1 2 0 3 3) 0 3).«end» -
          ((init_core4 (pack1 2 0 3 3) 0 3).start + 1))) = [] ∧
    parse1 (init_core4 (pack1 2 0 3 3) 0 3).start
      (([2, 0, 3, 1].drop (init_core4 (pack1 2 0 3 3) 0 3).start).take
        ((init_core4 (pack1 2 0 3 3) 0 3).«end» - 1 -
          (init_core4 (pack1 2 0 3 3) 0 3).start)) = [] :=
  ⟨by decide,
    (parse1_boundary_sensitivity [2, 0, 3, 1] (init_core4 (pack1 2 0 3 3) 0 3)
      (by decide)).1,
    (parse1_boundary_sensitivity [2, 0, 3, 1] (init_core4 (pack1 2 0 3 3) 0 3)
      (by decide)).2⟩

/-- The parse result of `lps.h` (`struct lps`): a level counter and the
ordered core sequence. -/
structure lps where
  level : Nat
  cores : List core
deriving DecidableEq, Repr

/-- Modelled from the spec: the candidate core at window position `i` of a
level-`k` core sequence (`k ≥ 1`) — the same minimal instantiation of the
§4.3 window rule as `coreAt`, the extremum now tested on the lower-level
labels and the emitted core built by `init_core3` from the window run. -/
def coreAtN (cs : List core) (i : Nat) : Option core :=
  match cs[i]?, cs[i + 1]?, cs[i + 2]? with
  | some a, some b, some c =>
      if b.label < a.label ∧ b.label < c.label then init_core3 [a, b, c] 3
      else none
  | _, _, _ => none

/-- Modelled from the spec: one Core Identifier pass over a core-label
sequence (level `k` to level `k+1`, §4.3/§4.4). -/
def parseN (cs : List core) : List core :=
  (List.range cs.length).filterMap (coreAtN cs)

/-- Whether the 3-symbol window at position `i` matches the extremum test
(its middle symbol is a strict local minimum) — the position-wise test
shared by the window enumeration `parse1` and the §4.3 scan `scan1`. -/
def winAt (s : List Nat) (i : Nat) : Bool :=
  match s[i]?, s[i + 1]?, s[i + 2]? with
  | some a, some b, some c => decide (b < a ∧ b < c)
  | _, _, _ => false

/-- Modelled from the spec: the level-1 Core Identifier with the full §4.3
scan shape — scan left to right; on a match emit the window's core and
advance past it (the next window starts right after the emitted core); on
no match advance by one symbol.  The emitted cores are therefore
non-overlapping (§3). -/
def scan1 (off : Nat) : List Nat → List core
  | a :: b :: c :: rest =>
      if b < a ∧ b < c then
        init_core4 (pack1 a b c 3) off (off + 3) :: scan1 (off + 3) rest
      else scan1 (off + 1) (b :: c :: rest)
  | _ => []

/-- Modelled from the spec: the §4.5 overlap walk — a core of the chunk
whose label and range are fully reproduced in the merged remainder (at the
head of the next chunk) is a duplicate and is kept once; the chunk
contributes its other cores, each fully formed within it. -/
def mergeDup (head rest : List core) : List core :=
  head.filter (fun c => decide (c ∉ rest)) ++ rest

/-- Modelled from the spec: the Segment Splitter/Merger (§4.5) — chunks of
`L` symbols, each extended by an overlap margin of `M` symbols copied into
the next chunk's leading region, scanned independently at level 1 and
merged with `mergeDup`.  The `fuel` argument bounds the number of chunks;
every recursive step consumes `L ≥ 1` symbols, so the `s.length` passed by
`splitScan` is always sufficient.  A `split_length` of 0 degenerates to a
single chunk. -/
def splitScan_go : Nat → Nat → List Nat → Nat → Nat → List core
  | 0, off, s, _, _ => scan1 off s
  | fuel + 1, off, s, L, M =>
      if s.length ≤ L + M ∨ L = 0 then scan1 off s
      else
        mergeDup (scan1 off (s.take (L + M)))
          (splitScan_go fuel (off + L) (s.drop L) L M)

/-- Modelled from the spec: the Segment Splitter/Merger entry point. -/
def splitScan (off : Nat) (s : List Nat) (L M : Nat) : List core :=
  splitScan_go s.length off s L M

/-- Modelled from the spec (§4.4): one deepening step per unit of `fuel` —
when a step produces zero cores the structure is left unchanged, otherwise
the cores are replaced and the level incremented. -/
def lps_deepen_go : Nat → lps → lps
  | 0, p => p
  | fuel + 1, p =>
      let next := parseN p.cores
      if next = [] then p
      else lps_deepen_go fuel { level := p.level + 1, cores := next }

/-- `lps_deepen` modelled from the spec (§4.4): repeat single deepening
steps until the target level is reached or a step fails;
`lcp_level - p.level` is exactly the number of steps still allowed. -/
def lps_deepen (p : lps) (lcp_level : Nat) : lps :=
  lps_deepen_go (lcp_level - p.level) p

/-- Modelled from the spec: `init_lps` — whole-sequence level-1 scan. -/
def init_lps (s : List Nat) : lps :=
  { level := 1, cores := scan1 0 s }

/-- Modelled from the spec: `init_lps4` of the tests — split the sequence
into chunks of `split_length` with `overlap` margin, scan the chunks
independently, merge, then deepen to `lcp_level` (§4.5; merging happens
before any deepening). -/
def init_lps4 (s : List Nat) (lcp_level split_length overlap : Nat) : lps :=
  lps_deepen { level := 1, cores := splitScan 0 s split_length overlap } lcp_level

lemma coreAt_take (off k : Nat) (s : List Nat) (i : Nat) :
    coreAt off (s.take k) i = if i + 3 ≤ k then coreAt off s i else none := by
  by_cases h : i + 3 ≤ k
  · rw [if_pos h]
    unfold coreAt
    rw [List.getElem?_take, List.getElem?_take, List.getElem?_take,
        if_pos (show i < k by omega), if_pos (show i + 1 < k by omega),
        if_pos (show i + 2 < k by omega)]
  · rw [if_neg h]
    unfold coreAt
    rw [List.getElem?_take, List.getElem?_take, List.getElem?_take,
        if_neg (show ¬i + 2 < k by omega)]
    rcases h0 : (if i < k then s[i]? else none) with _ | a <;>
      rcases h1 : (if i + 1 < k then s[i + 1]? else none) with _ | b <;> rfl

lemma coreAt_drop (off j : Nat) (s : List Nat) (i : Nat) :
    coreAt (off + j) (s.drop j) i = coreAt off s (j + i) := by
  unfold coreAt
  rw [List.getElem?_drop, List.getElem?_drop, List.getElem?_drop]
  simp [Nat.add_assoc]

lemma parse1_take (off : Nat) (s : List Nat) (k : Nat) (hk : k ≤ s.length) :
    parse1 off (s.take k) =
      (List.range k).filterMap
        (fun i => if i + 3 ≤ k then coreAt off s i else none) := by
  unfold parse1
  rw [List.length_take, min_eq_left hk]
  exact List.filterMap_congr (fun i _ => coreAt_take off k s i)

lemma parse1_drop (off L : Nat) (s : List Nat) :
    parse1 (off + L) (s.drop L) =
      (List.range (s.length - L)).filterMap (fun i => coreAt off s (L + i)) := by
  unfold parse1
  rw [List.length_drop]
  exact List.filterMap_congr (fun i _ => coreAt_drop off L s i)

lemma parse1_start_ge {off : Nat} {s : List Nat} {c : core}
    (hc : c ∈ parse1 off s) : off ≤ c.start := by
  rcases mem_parse1.1 hc with ⟨i, hi⟩
  have := (coreAt_some hi).1
  omega

lemma parse1_split_at (off L : Nat) (s : List Nat) (hL : L ≤ s.length) :
    parse1 off s =
      (List.range L).filterMap (coreAt off s) ++
        (List.range (s.length - L)).filterMap (fun i => coreAt off s (L + i)) := by
  unfold parse1
  rw [show s.length = L + (s.length - L) by omega, List.range_add,
      List.filterMap_append, List.filterMap_map]
  have harr : L + (s.length - L) - L = s.length - L := by omega
  rw [harr]
  rfl

lemma parse1_merge_decomp (off : Nat) (s : List Nat) (L M : Nat)
    (hlen : ¬s.length ≤ L + M)
    (hM : ∀ c ∈ parse1 off s, c.«end» - c.start ≤ M) :
    parse1 off s =
      (parse1 off (s.take (L + M))).filter
          (fun c => decide (c.start < off + L)) ++
        (parse1 (off + L) (s.drop L)).filter
          (fun c => decide (off + L ≤ c.start)) := by
  have hB : (parse1 (off + L) (s.drop L)).filter
      (fun c => decide (off + L ≤ c.start)) = parse1 (off + L) (s.drop L) := by
    rw [List.filter_eq_self]
    intro c hc
    simp [parse1_start_ge hc]
  rw [hB, parse1_take off s (L + M) (by omega), List.filter_filterMap]
  have hA : (List.range (L + M)).filterMap
        (fun i => Option.filter (fun c => decide (c.start < off + L))
          (if i + 3 ≤ L + M then coreAt off s i else none)) =
      (List.range L).filterMap (coreAt off s) := by
    rw [List.range_add, List.filterMap_append, List.filterMap_map]
    have h2 : (List.range M).filterMap
        ((fun i => Option.filter (fun c => decide (c.start < off + L))
          (if i + 3 ≤ L + M then coreAt off s i else none)) ∘ (fun x => L + x)) =
        [] := by
      rw [List.filterMap_eq_nil_iff]
      intro i _
      simp only [Function.comp]
      rcases hco : coreAt off s (L + i) with _ | c
      · split <;> simp [hco, Option.filter]
      · have hst := (coreAt_some hco).1
        split <;> simp [hco, Option.filter] <;> omega
    rw [h2, List.append_nil]
    apply List.filterMap_congr
    intro i hi
    have hiL : i < L := List.mem_range.1 hi
    rcases hco : coreAt off s i with _ | c
    · split <;> simp [hco, Option.filter]
    · obtain ⟨hst, hen, hbound⟩ := coreAt_some hco
      have hmem : c ∈ parse1 off s := mem_parse1.2 ⟨i, hco⟩
      have hlen3 : c.«end» - c.start ≤ M := hM c hmem
      have hfit : i + 3 ≤ L + M := by omega
      rw [if_pos hfit]
      simp [Option.filter]
      omega
  rw [hA]
  rw [parse1_drop off L s]
  exact parse1_split_at off L s (by omega)

lemma coreAt_isSome (off : Nat) (s : List Nat) (i : Nat) :
    (coreAt off s i).isSome = winAt s i := by
  unfold coreAt winAt
  rcases h0 : s[i]? with _ | a <;>
    rcases h1 : s[i + 1]? with _ | b <;>
      rcases h2 : s[i + 2]? with _ | c <;>
        first
          | rfl
          | (by_cases hp : b < a ∧ b < c <;> simp [hp])

lemma coreAt_eq_none {s : List Nat} {i : Nat} (off : Nat)
    (h : winAt s i = false) : coreAt off s i = none := by
  rcases hco : coreAt off s i with _ | c
  · rfl
  · have hs := coreAt_isSome off s i
    rw [hco, h] at hs
    simp at hs

lemma winAt_true_bound {s : List Nat} {i : Nat} (h : winAt s i = true) :
    i + 3 ≤ s.length := by
  by_contra hge
  have h2 : s[i + 2]? = none := List.getElem?_eq_none (by omega)
  unfold winAt at h
  rcases h0 : s[i]? with _ | a <;>
    rcases h1 : s[i + 1]? with _ | b <;>
      rw [h0, h1, h2] at h <;> simp at h

lemma winAt_drop (s : List Nat) (j i : Nat) :
    winAt (s.drop j) i = winAt s (j + i) := by
  have h1 := coreAt_isSome j (s.drop j) i
  have h2 := coreAt_isSome 0 s (j + i)
  have h3 : coreAt j (s.drop j) i = coreAt 0 s (j + i) := by
    have h := coreAt_drop 0 j s i
    simpa using h
  rw [← h1, h3, h2]

lemma winAt_take_true {s : List Nat} {k i : Nat} (h : i + 3 ≤ k) :
    winAt (s.take k) i = winAt s i := by
  have h1 := coreAt_isSome 0 (s.take k) i
  have h2 := coreAt_isSome 0 s i
  rw [← h1, coreAt_take, if_pos h, h2]

lemma winAt_take_false {s : List Nat} {k i : Nat} (h : ¬i + 3 ≤ k) :
    winAt (s.take k) i = false := by
  have h1 := coreAt_isSome 0 (s.take k) i
  rw [← h1, coreAt_take, if_neg h]
  rfl

lemma winAt_true_iff {s : List Nat} {i : Nat} :
    winAt s i = true ↔ ∃ a b c, s[i]? = some a ∧ s[i + 1]? = some b ∧
      s[i + 2]? = some c ∧ b < a ∧ b < c := by
  unfold winAt
  rcases h0 : s[i]? with _ | a <;> rcases h1 : s[i + 1]? with _ | b <;>
    rcases h2 : s[i + 2]? with _ | c <;> simp [h0, h1, h2]

lemma winAt_succ_false {s : List Nat} {i : Nat} (h : winAt s i = true) :
    winAt s (i + 1) = false := by
  obtain ⟨a, b, c, h0, h1, h2, hab, hbc⟩ := winAt_true_iff.1 h
  cases hw : winAt s (i + 1) with
  | false => rfl
  | true =>
    exfalso
    obtain ⟨x, y, z, h0x, h1y, h2z, hyx, hyz⟩ := winAt_true_iff.1 hw
    rw [h1] at h0x
    rw [show i + 1 + 1 = i + 2 from rfl, h2] at h1y
    have e1 : b = x := Option.some_inj.1 h0x
    have e2 : c = y := Option.some_inj.1 h1y
    omega

lemma parse1_skip (off : Nat) (s : List Nat) (h0 : winAt s 0 = false)
    (hlen : 1 ≤ s.length) :
    parse1 off s = parse1 (off + 1) (s.drop 1) := by
  rw [parse1_split_at off 1 s hlen, parse1_drop off 1 s]
  rw [show List.range 1 = [0] from rfl]
  simp [List.filterMap_cons, coreAt_eq_none off h0]

lemma scan1_eq_parse1 (s : List Nat) (off : Nat)
    (hsep : ∀ i, winAt s i = true → winAt s (i + 2) = false) :
    scan1 off s = parse1 off s := by
  generalize hn : s.length = n
  induction n using Nat.strong_induction_on generalizing off s with
  | _ n ih =>
    rcases s with _ | ⟨a, _ | ⟨b, _ | ⟨c, r⟩⟩⟩
    · rw [parse1_short (by simp)]
      rfl
    · rw [parse1_short (by simp)]
      rfl
    · rw [parse1_short (by simp)]
      rfl
    · have hn' : r.length + 3 = n := by simpa using hn
      by_cases hp : b < a ∧ b < c
      · have hw0 : winAt (a :: b :: c :: r) 0 = true := by simp [winAt, hp]
        have hw1 : winAt (a :: b :: c :: r) 1 = false := winAt_succ_false hw0
        have hw2 : winAt (a :: b :: c :: r) 2 = false := by
          have h := hsep 0 hw0
          simpa using h
        rw [scan1, if_pos hp]
        rw [parse1_split_at off 3 _ (by simp)]
        have e0 : coreAt off (a :: b :: c :: r) 0 =
            some (init_core4 (pack1 a b c 3) off (off + 3)) := by
          simp [coreAt, hp, init_core4]
        have hfirst : (List.range 3).filterMap (coreAt off (a :: b :: c :: r)) =
            [init_core4 (pack1 a b c 3) off (off + 3)] := by
          rw [show List.range 3 = [0, 1, 2] from rfl]
          simp [List.filterMap_cons, e0, coreAt_eq_none off hw1,
            coreAt_eq_none off hw2]
        rw [hfirst]
        have hsecond : (List.range ((a :: b :: c :: r).length - 3)).filterMap
            (fun i => coreAt off (a :: b :: c :: r) (3 + i)) =
            parse1 (off + 3) r := by
          rw [← parse1_drop off 3 (a :: b :: c :: r)]
          rfl
        rw [hsecond]
        have hsep_r : ∀ i, winAt r i = true → winAt r (i + 2) = false := by
          intro i hw
          rw [show r = (a :: b :: c :: r).drop 3 from rfl, winAt_drop] at hw ⊢
          exact hsep (3 + i) hw
        rw [ih r.length (by omega) r (off + 3) hsep_r rfl]
        rfl
      · have hw0 : winAt (a :: b :: c :: r) 0 = false := by simp [winAt, hp]
        rw [scan1, if_neg hp]
        have hsep_t : ∀ i, winAt (b :: c :: r) i = true →
            winAt (b :: c :: r) (i + 2) = false := by
          intro i hw
          rw [show (b :: c :: r) = (a :: b :: c :: r).drop 1 from rfl,
            winAt_drop] at hw ⊢
          exact hsep (1 + i) hw
        rw [ih (b :: c :: r).length (by simp; omega) (b :: c :: r) (off + 1)
            hsep_t rfl]
        rw [parse1_skip off (a :: b :: c :: r) hw0 (by simp)]
        rfl

lemma mergeDup_eq_filters (off L M : Nat) (s : List Nat) :
    mergeDup (parse1 off (s.take (L + M))) (parse1 (off + L) (s.drop L)) =
      (parse1 off (s.take (L + M))).filter
          (fun c => decide (c.start < off + L)) ++
        (parse1 (off + L) (s.drop L)).filter
          (fun c => decide (off + L ≤ c.start)) := by
  unfold mergeDup
  congr 1
  · apply List.filter_congr
    intro c hc
    rcases mem_parse1.1 hc with ⟨i, hi⟩
    rw [coreAt_take] at hi
    have hfit : i + 3 ≤ L + M ∧ coreAt off s i = some c := by
      by_cases hf : i + 3 ≤ L + M
      · rw [if_pos hf] at hi
        exact ⟨hf, hi⟩
      · rw [if_neg hf] at hi
        exact Option.noConfusion hi
    obtain ⟨hf, hco⟩ := hfit
    obtain ⟨hst, hen, hbnd⟩ := coreAt_some hco
    by_cases hcut : c.start < off + L
    · have hnotin : c ∉ parse1 (off + L) (s.drop L) := by
        intro hmem
        have h := parse1_start_ge hmem
        omega
      simp [hnotin, hcut]
    · have hmem : c ∈ parse1 (off + L) (s.drop L) := by
        apply mem_parse1.2
        refine ⟨i - L, ?_⟩
        rw [coreAt_drop, show L + (i - L) = i by omega]
        exact hco
      simp [hmem, hcut]
  · symm
    rw [List.filter_eq_self]
    intro c hc
    simp [parse1_start_ge hc]

lemma splitScan_go_eq (fuel : Nat) : ∀ (off : Nat) (s : List Nat) (L M : Nat),
    s.length ≤ fuel →
    (∀ i, winAt s i = true → winAt s (i + 2) = false) →
    (∀ c ∈ parse1 off s, c.«end» - c.start ≤ M) →
    splitScan_go fuel off s L M = parse1 off s := by
  induction fuel with
  | zero =>
    intro off s L M hf hsep hM
    have hnil : s = [] := List.length_eq_zero.1 (by omega)
    subst hnil
    rfl
  | succ fuel ih =>
    intro off s L M hf hsep hM
    rw [splitScan_go]
    by_cases hcond : s.length ≤ L + M ∨ L = 0
    · rw [if_pos hcond]
      exact scan1_eq_parse1 s off hsep
    · rw [if_neg hcond]
      push_neg at hcond
      obtain ⟨hlen, hL⟩ := hcond
      have hsep_take : ∀ i, winAt (s.take (L + M)) i = true →
          winAt (s.take (L + M)) (i + 2) = false := by
        intro i hw
        by_cases hfit : i + 3 ≤ L + M
        · rw [winAt_take_true hfit] at hw
          by_cases hfit2 : i + 2 + 3 ≤ L + M
          · rw [winAt_take_true hfit2]
            exact hsep i hw
          · exact winAt_take_false hfit2
        · rw [winAt_take_false hfit] at hw
          exact Bool.noConfusion hw
      have hsep_drop : ∀ i, winAt (s.drop L) i = true →
          winAt (s.drop L) (i + 2) = false := by
        intro i hw
        rw [winAt_drop] at hw ⊢
        exact hsep (L + i) hw
      have hM_drop : ∀ c ∈ parse1 (off + L) (s.drop L),
          c.«end» - c.start ≤ M := by
        intro c hc
        rcases mem_parse1.1 hc with ⟨i, hi⟩
        rw [coreAt_drop] at hi
        exact hM c (mem_parse1.2 ⟨L + i, hi⟩)
      rw [scan1_eq_parse1 _ off hsep_take,
        ih (off + L) (s.drop L) L M (by simp; omega) hsep_drop hM_drop,
        mergeDup_eq_filters off L M s]
      exact (parse1_merge_decomp off s L M (by omega) hM).symm

lemma splitScan_eq_parse1 (off : Nat) (s : List Nat) (L M : Nat)
    (hsep : ∀ i, winAt s i = true → winAt s (i + 2) = false)
    (hM : ∀ c ∈ parse1 off s, c.«end» - c.start ≤ M) :
    splitScan off s L M = parse1 off s :=
  splitScan_go_eq s.length off s L M le_rfl hsep hM

/-- C7 (counterexample): with the faithful §4.3 scan — which advances past
an emitted core — and the §4.5 duplicate-dropping merge, split/merge
equivalence fails as universally stated even though the overlap margin (3)
is at least the length of every core occurring in the sequence: on
`[3,1,2,0,3,9,9,9]` with `split_length = 2`, `overlap = 3`, the
whole-sequence scan emits only the core over `[0, 3)` (advancing past it
skips the overlapping candidate window at position 2), while the second
chunk `[2,0,3,9,9]`, scanned independently from position 2, captures the
fully-formed core `[2, 5)`, which the merge must keep; the merged result
has two cores where the whole-sequence parse has one. -/
theorem split_merge_counterexample :
    (∀ c ∈ scan1 0 [3, 1, 2, 0, 3, 9, 9, 9], c.«end» - c.start ≤ 3) ∧
    init_lps4 [3, 1, 2, 0, 3, 9, 9, 9] 1 2 3 ≠
      lps_deepen (init_lps [3, 1, 2, 0, 3, 9, 9, 9]) 1 := by
  decide

/-- C7 (amended): for any symbol sequence in which no two matching
extremum windows overlap (matching positions are never 2 apart; a distance
of 1 is impossible outright, so the §4.3 scan then emits exactly the
matching windows), and any `(split_length, overlap_margin)` with the
overlap at least the length of every core occurring in the sequence,
parsing via the segment splitter/merger and then deepening to level `k`
produces a result identical — same level, same cores in the same order —
to parsing the whole unsplit sequence and deepening to level `k`. -/
theorem split_merge_equivalence (s : List Nat) (k L M : Nat)
    (hsep : ∀ i < s.length, winAt s i = true → winAt s (i + 2) = false)
    (hM : ∀ c ∈ scan1 0 s, c.«end» - c.start ≤ M) :
    init_lps4 s k L M = lps_deepen (init_lps s) k := by
  have hsep' : ∀ i, winAt s i = true → winAt s (i + 2) = false := by
    intro i hw
    exact hsep i (by have h := winAt_true_bound hw; omega) hw
  have hscan : scan1 0 s = parse1 0 s := scan1_eq_parse1 s 0 hsep'
  have hM' : ∀ c ∈ parse1 0 s, c.«end» - c.start ≤ M := by
    rw [← hscan]
    exact hM
  unfold init_lps4 init_lps
  rw [splitScan_eq_parse1 0 s L M hsep' hM', hscan]

/-- Witness for `split_merge_equivalence`: a 7-symbol sequence with two
non-overlapping extremum windows, split into chunks of 2 with overlap 3,
deepened to level 2. -/
theorem split_merge_equivalence_witness :
    (∀ i < ([2, 0, 3, 3, 1, 3, 2] : List Nat).length,
      winAt [2, 0, 3, 3, 1, 3, 2] i = true →
        winAt [2, 0, 3, 3, 1, 3, 2] (i + 2) = false) ∧
    (∀ c ∈ scan1 0 [2, 0, 3, 3, 1, 3, 2], c.«end» - c.start ≤ 3) ∧
    init_lps4 [2, 0, 3, 3, 1, 3, 2] 2 2 3 =
      lps_deepen (init_lps [2, 0, 3, 3, 1, 3, 2]) 2 :=
  ⟨by decide, by decide,
    split_merge_equivalence [2, 0, 3, 3, 1, 3, 2] 2 2 3 (by decide) (by decide)⟩

/-!
The Serializer (§4.6, §6).  Its implementation (`write_lps` / `init_lps3`
of the tests) is not under `src/`; modelled from the spec's binary format:
`level` as 4 bytes, the core count as 8 bytes, then each core as
`label:4`, `start:8`, `end:8`, little-endian.
-/

/-- Modelled from the spec: reading a `k`-byte little-endian integer from
the front of a byte stream, returning the value and the remaining stream,
failing (`CorruptData`) when the stream ends early. -/
def readLE : Nat → List Nat → Option (Nat × List Nat)
  | 0, r => some (0, r)
  | _ + 1, [] => none
  | k + 1, b :: r => (readLE k r).map (fun v => (b + 256 * v.1, v.2))

/-- Modelled from the spec: the 16-byte record of one core (§6). -/
def write_core (c : core) : List Nat :=
  bytesLE 4 c.label ++ bytesLE 8 c.start ++ bytesLE 8 c.«end»

/-- Modelled from the spec: `write_lps` — `level` (4 bytes), core count
(8 bytes), then the core records in sequence order. -/
def write_lps (p : lps) : List Nat :=
  bytesLE 4 p.level ++ bytesLE 8 p.cores.length ++
    (p.cores.map write_core).flatten

/-- Modelled from the spec: reading back `count` core records. -/
def readCores : Nat → List Nat → Option (List core × List Nat)
  | 0, r => some ([], r)
  | k + 1, r => do
      let (lab, r1) ← readLE 4 r
      let (st, r2) ← readLE 8 r1
      let (en, r3) ← readLE 8 r2
      let (cs, r4) ← readCores k r3
      some (init_core4 lab st en :: cs, r4)

/-- Modelled from the spec: `init_lps3` — deserializing a byte stream back
into a parse result (level, count, then that many records). -/
def init_lps3 (bytes : List Nat) : Option lps := do
  let (lvl, r1) ← readLE 4 bytes
  let (cnt, r2) ← readLE 8 r1
  let (cs, _) ← readCores cnt r2
  some { level := lvl, cores := cs }

lemma readLE_bytesLE (k : Nat) : ∀ (n : Nat) (r : List Nat), n < 256 ^ k →
    readLE k (bytesLE k n ++ r) = some (n, r) := by
  induction k with
  | zero =>
    intro n r h
    interval_cases n
    rfl
  | succ k ih =>
    intro n r h
    have hq : n / 256 < 256 ^ k := by
      rw [Nat.div_lt_iff_lt_mul (by norm_num)]
      calc n < 256 ^ (k + 1) := h
        _ = 256 ^ k * 256 := by ring
    simp only [bytesLE, readLE, List.cons_append, List.append_eq]
    rw [ih (n / 256) r hq]
    simp [Nat.mod_add_div]

lemma readCores_roundtrip (cs : List core) (r : List Nat)
    (h : ∀ c ∈ cs, c.label < 2 ^ 32 ∧ c.start < 2 ^ 64 ∧ c.«end» < 2 ^ 64) :
    readCores cs.length ((cs.map write_core).flatten ++ r) = some (cs, r) := by
  induction cs with
  | nil => rfl
  | cons c cs ih =>
    obtain ⟨hlab, hst, hen⟩ := h c (List.mem_cons_self c cs)
    have hrest : ∀ x ∈ cs, x.label < 2 ^ 32 ∧ x.start < 2 ^ 64 ∧ x.«end» < 2 ^ 64 :=
      fun x hx => h x (List.mem_cons_of_mem c hx)
    have h4 : c.label < 256 ^ 4 := by
      simp only [show (256 : Nat) ^ 4 = 2 ^ 32 by norm_num]
      exact hlab
    have h8s : c.start < 256 ^ 8 := by
      simp only [show (256 : Nat) ^ 8 = 2 ^ 64 by norm_num]
      exact hst
    have h8e : c.«end» < 256 ^ 8 := by
      simp only [show (256 : Nat) ^ 8 = 2 ^ 64 by norm_num]
      exact hen
    simp only [List.length_cons, List.map_cons, List.flatten_cons, write_core,
      List.append_assoc]
    rw [readCores]
    rw [readLE_bytesLE 4 c.label _ h4]
    simp only [Option.bind_eq_bind, Option.some_bind]
    rw [readLE_bytesLE 8 c.start _ h8s]
    simp only [Option.some_bind]
    rw [readLE_bytesLE 8 c.«end» _ h8e]
    simp only [Option.some_bind]
    rw [ih hrest]
    simp only [Option.some_bind]
    rfl

/-- C8: serializing a core sequence with `write_lps` and deserializing
with `init_lps3` reproduces an equal structure — same level, same core
count, and the same label/start/end for every core, in order — for every
(in particular every non-empty) well-formed core sequence (fields within
their `u32`/`u64` ranges). -/
theorem write_read_roundtrip (p : lps) (hne : p.cores ≠ [])
    (hlvl : p.level < 2 ^ 32) (hcnt : p.cores.length < 2 ^ 64)
    (hwf : ∀ c ∈ p.cores, c.label < 2 ^ 32 ∧ c.start < 2 ^ 64 ∧ c.«end» < 2 ^ 64) :
    init_lps3 (write_lps p) = some p := by
  unfold init_lps3 write_lps
  rw [show bytesLE 4 p.level ++ bytesLE 8 p.cores.length ++
        (p.cores.map write_core).flatten =
      bytesLE 4 p.level ++ (bytesLE 8 p.cores.length ++
        (p.cores.map write_core).flatten) by simp]
  rw [readLE_bytesLE 4 p.level _
    (by simp only [show (256 : Nat) ^ 4 = 2 ^ 32 by norm_num]; exact hlvl)]
  simp only [Option.bind_eq_bind, Option.some_bind]
  rw [readLE_bytesLE 8 p.cores.length _
    (by simp only [show (256 : Nat) ^ 8 = 2 ^ 64 by norm_num]; exact hcnt)]
  simp only [Option.some_bind]
  rw [← List.append_nil ((p.cores.map write_core).flatten),
      readCores_roundtrip p.cores [] hwf]
  rfl

/-- Witness for `write_read_roundtrip` on a one-core structure. -/
theorem write_read_roundtrip_witness :
    ({ level := 1, cores := [init_core4 70 0 3] } : lps).cores ≠ [] ∧
    init_lps3 (write_lps { level := 1, cores := [init_core4 70 0 3] }) =
      some { level := 1, cores := [init_core4 70 0 3] } :=
  ⟨by decide,
    write_read_roundtrip { level := 1, cores := [init_core4 70 0 3] }
      (by decide) (by decide) (by decide) (by decide)⟩

/-!
Reverse-complement mode (§4.3): the identical identification algorithm
over `rc_encode`-mapped symbols read in reverse order, producing cores in
original-sequence coordinates.  The parsing entry points are not under
`src/`; `init_core2` (which builds the label of one reverse-complement
window) is, and is embedded above.
-/

/-- Modelled from the spec: fail-fast encoding of a byte sequence into
2-bit codes (§4.1, `InvalidSymbol`). -/
def encodeSeq (s : List Char) : Option (List Nat) :=
  s.mapM (fun ch => if alphabet ch < 4 then some (alphabet ch) else none)

/-- Modelled from the spec: reverse-complement mode — run `parse1` over
the value-complemented symbols in reverse order and express every
resulting core in original-sequence coordinates. -/
def parse1_rc (codes : List Nat) : List core :=
  (parse1 0 ((codes.map (fun x => 3 - x)).reverse)).map
    (fun c => init_core4 c.label (codes.length - c.«end») (codes.length - c.start))

lemma rc_alphabet_eq_of_valid (ch : Char) (h : alphabet ch < 4) :
    rc_alphabet ch = 3 - alphabet ch := by
  unfold alphabet rc_alphabet at *
  split_ifs <;> simp_all

lemma encodeSeq_spec {s : List Char} {codes : List Nat}
    (h : encodeSeq s = some codes) :
    codes.length = s.length ∧
    ∀ (i : Nat) (ch : Char), s[i]? = some ch →
      alphabet ch < 4 ∧ codes[i]? = some (alphabet ch) := by
  induction s generalizing codes with
  | nil =>
    rw [encodeSeq, List.mapM_nil] at h
    simp only [pure, Option.some_inj] at h
    subst h
    simp
  | cons ch t ih =>
    rw [encodeSeq, List.mapM_cons] at h
    by_cases hv : alphabet ch < 4
    · rw [if_pos hv] at h
      rcases hm : t.mapM (fun ch => if alphabet ch < 4 then some (alphabet ch)
          else none) with _ | vs
      · rw [hm] at h
        simp at h
      · rw [hm] at h
        simp at h
        obtain ⟨hlen, hidx⟩ := ih (show encodeSeq t = some vs from hm)
        constructor
        · rw [← h]
          simp [hlen]
        · intro i x hx
          match i with
          | 0 =>
            rw [List.getElem?_cons_zero] at hx
            have hx' := Option.some_inj.1 hx
            subst hx'
            rw [← h, List.getElem?_cons_zero]
            exact ⟨hv, rfl⟩
          | i + 1 =>
            rw [List.getElem?_cons_succ] at hx
            obtain ⟨hv', he'⟩ := hidx i x hx
            rw [← h, List.getElem?_cons_succ]
            exact ⟨hv', he'⟩
    · rw [if_neg hv] at h
      simp at h

lemma init_core2_three (x y z : Char) (st en : Nat) :
    init_core2 [x, y, z] 3 st en =
      some { label := pack1 (rc_alphabet x) (rc_alphabet y) (rc_alphabet z) 3,
             start := st, «end» := en } := rfl

/-- C9: in reverse-complement mode (the identical identification algorithm
run over the value-complemented symbol sequence read in reverse order,
results expressed in original-sequence coordinates), every produced core
spans a 3-symbol range `[start, start+3) ⊆ [0, length)` of the original
sequence and is exactly the core built by `init_core2` — the `rc_alphabet`
level-1 packing of `core.c` — on the reversed span of original
characters. -/
theorem rc_mode_init_core2 (s : List Char) (codes : List Nat)
    (henc : encodeSeq s = some codes) (c : core) (hc : c ∈ parse1_rc codes) :
    c.«end» = c.start + 3 ∧ c.«end» ≤ s.length ∧
    init_core2 (((s.drop c.start).take 3).reverse) 3 c.start c.«end» = some c := by
  obtain ⟨hlen, hidx⟩ := encodeSeq_spec henc
  unfold parse1_rc at hc
  rw [List.mem_map] at hc
  obtain ⟨c0, hc0, hfc⟩ := hc
  rcases mem_parse1.1 hc0 with ⟨i, hi⟩
  obtain ⟨hst0, hen0, hlen0⟩ := coreAt_some hi
  obtain ⟨a, b, d, h0, h1, h2, hab, hbd, hc0'⟩ := coreAt_window hi
  have hrlen : ((codes.map (fun x => 3 - x)).reverse).length = codes.length := by
    simp
  have hn : i + 3 ≤ codes.length := by rw [← hrlen]; exact hlen0
  have hslen : codes.length = s.length := hlen
  -- the three original characters under the reverse-complement window
  have hst2 : codes.length - (i + 3) + 2 < s.length := by omega
  have hst1 : codes.length - (i + 3) + 1 < s.length := by omega
  have hstl : codes.length - (i + 3) < s.length := by omega
  have e0 : s[codes.length - (i + 3)]? = some (s.get ⟨codes.length - (i + 3), hstl⟩) := by
    rw [List.getElem?_eq_getElem hstl]
    rfl
  have e1 : s[codes.length - (i + 3) + 1]? =
      some (s.get ⟨codes.length - (i + 3) + 1, hst1⟩) := by
    rw [List.getElem?_eq_getElem hst1]
    rfl
  have e2 : s[codes.length - (i + 3) + 2]? =
      some (s.get ⟨codes.length - (i + 3) + 2, hst2⟩) := by
    rw [List.getElem?_eq_getElem hst2]
    rfl
  obtain ⟨hv0, hcode0⟩ := hidx _ _ e0
  obtain ⟨hv1, hcode1⟩ := hidx _ _ e1
  obtain ⟨hv2, hcode2⟩ := hidx _ _ e2
  -- decode the reversed, complemented lookups
  have hrev : ∀ (j : Nat), j < codes.length →
      ((codes.map (fun x => 3 - x)).reverse)[j]? =
        (codes[codes.length - 1 - j]?).map (fun x => 3 - x) := by
    intro j hj
    rw [List.getElem?_reverse (by simpa using hj), List.getElem?_map]
    simp
  have ha : a = 3 - alphabet (s.get ⟨codes.length - (i + 3) + 2, hst2⟩) := by
    have h := h0
    rw [hrev i (by omega)] at h
    rw [show codes.length - 1 - i = codes.length - (i + 3) + 2 by omega] at h
    rw [hcode2] at h
    simpa using h.symm
  have hb : b = 3 - alphabet (s.get ⟨codes.length - (i + 3) + 1, hst1⟩) := by
    have h := h1
    rw [hrev (i + 1) (by omega)] at h
    rw [show codes.length - 1 - (i + 1) = codes.length - (i + 3) + 1 by omega] at h
    rw [hcode1] at h
    simpa using h.symm
  have hd : d = 3 - alphabet (s.get ⟨codes.length - (i + 3), hstl⟩) := by
    have h := h2
    rw [hrev (i + 2) (by omega)] at h
    rw [show codes.length - 1 - (i + 2) = codes.length - (i + 3) by omega] at h
    rw [hcode0] at h
    simpa using h.symm
  -- identify the fields of c
  subst hfc
  simp only [init_core4, hen0, hst0]
  have hcs : codes.length - (0 + i) = codes.length - (i + 3) + 3 := by omega
  have hce : codes.length - (0 + i + 3) = codes.length - (i + 3) := by omega
  rw [hcs, hce]
  refine ⟨rfl, by omega, ?_⟩
  -- the reversed span
  have hwin : s.drop (codes.length - (i + 3)) =
      s.get ⟨codes.length - (i + 3), hstl⟩ ::
      s.get ⟨codes.length - (i + 3) + 1, hst1⟩ ::
      s.get ⟨codes.length - (i + 3) + 2, hst2⟩ ::
        s.drop (codes.length - (i + 3) + 3) := by
    exact drop_window e0 e1 e2
  rw [hwin]
  simp only [List.take_succ_cons, List.take_zero, List.reverse_cons,
    List.reverse_nil, List.nil_append, List.cons_append, List.append_nil]
  rw [init_core2_three]
  rw [rc_alphabet_eq_of_valid _ hv2, rc_alphabet_eq_of_valid _ hv1,
      rc_alphabet_eq_of_valid _ hv0]
  rw [hc0']
  simp only [init_core4, ← ha, ← hb, ← hd]

/-- Witness for `rc_mode_init_core2` on `"ATGT"`: the single
reverse-complement core covers `[0, 3)` and is rebuilt by `init_core2` on
the reversed span `"GTA"`. -/
theorem rc_mode_init_core2_witness :
    encodeSeq ['A', 'T', 'G', 'T'] = some [0, 3, 2, 3] ∧
    init_core4 (pack1 1 0 3 3) 0 3 ∈ parse1_rc [0, 3, 2, 3] ∧
    init_core2 (((['A', 'T', 'G', 'T'].drop 0).take 3).reverse) 3 0 3 =
      some (init_core4 (pack1 1 0 3 3) 0 3) :=
  ⟨by decide, by decide,
    (rc_mode_init_core2 ['A', 'T', 'G', 'T'] [0, 3, 2, 3] (by decide)
      (init_core4 (pack1 1 0 3 3) 0 3) (by decide)).2.2⟩
